import Mathlib

/-!
# Verification of `LatentDynamicsModel` (src/src/models/latent_dynamics_model.py)

A shallow embedding of the latent-space dynamics predictor: a feed-forward
network mapping (latent state, action) to (next latent state, reward,
termination probability), together with its exact-match memoization cache.

Conventions of the embedding:
* tensors (1-D, unbatched — the regime the memoization contract assumes)
  are `List α` over a linear ordered commutative ring `α`; concrete
  instantiations use `ℤ` (fully executable, for witnesses) and `ℝ` (for the
  logistic/termination bound);
* `nn.Linear` is a weight matrix (list of rows) plus a bias vector, with the
  input-width check that torch performs; a width mismatch (torch exception)
  is `Option.none`;
* `torch.sigmoid` is element-wise application of a squashing function `σ`,
  passed explicitly to `forward`; over `ℝ` it is instantiated with the real
  logistic function `sigmoidR`;
* the mutation of `self.memos` is explicit state passing: `forward` returns
  the result tuple together with the updated model;
* the device (`get_device`, `.to(device)`) moves data without changing
  values, so it is dropped from the value-level embedding.
-/

set_option maxRecDepth 10000

namespace LDM

variable {α : Type} [LinearOrderedCommRing α] [DecidableEq α]

/-- Embedding of `torch.relu`, the element-wise rectifier on one coordinate. -/
def relu (x : α) : α := max 0 x

/-- Dot product of two coordinate lists (`torch` matrix-row times vector). -/
def dot (u v : List α) : α := (List.zipWith (· * ·) u v).sum

/-- Embedding of `nn.Linear(inF, outF)`: a weight matrix (one row per output
feature) and a bias vector, remembering the declared input width. -/
structure Linear (α : Type) where
  inF : ℕ
  weight : List (List α)
  bias : List α
  deriving DecidableEq

/-- Application of a linear layer. torch raises a shape error when the
input's last dimension differs from the layer's `in_features`; that failure
is `none`. -/
def applyLinear (l : Linear α) (v : List α) : Option (List α) :=
  if v.length = l.inF then
    some (List.zipWith (fun row b => dot row v + b) l.weight l.bias)
  else
    none

/-- torch 1-D broadcast addition (used by `latent_obs + self.latent_out(x)`
in delta mode): succeeds when the lengths agree or one side has length 1,
fails (shape error) otherwise. -/
def addBroadcast (u v : List α) : Option (List α) :=
  if u.length = v.length then some (List.zipWith (· + ·) u v)
  else if u.length = 1 then some (v.map (fun y => u.headD 0 + y))
  else if v.length = 1 then some (u.map (fun y => y + v.headD 0))
  else none

/-- Modelled from the spec: `HashedTensor` (from `src/utils`, whose source is
not in the repository snapshot) wraps a tensor and exposes value-based hashing
and equality — two keys are equal iff the underlying concatenated vectors are
element-wise identical. A memo key is therefore represented by the
concatenated vector itself, compared structurally. -/
abbrev MemoKey (α : Type) := List α

/-- A memoized prediction triple: next latent observation, reward tensor,
termination tensor (each a tensor, as stored by the Python code). -/
abbrev Triple (α : Type) := List α × List α × List α

/-- The memo store `self.memos`: an association list with Python-`dict`
semantics (unique keys; insertion of a present key overwrites in place,
insertion of a fresh key appends). -/
abbrev Memos (α : Type) := List (MemoKey α × Triple α)

/-- Lookup in the memo store: first entry whose key equals `k` by value. -/
def memoLookup (ms : Memos α) (k : MemoKey α) : Option (Triple α) :=
  (ms.find? (fun p => decide (p.1 = k))).map Prod.snd

/-- Embedding of `dict.__setitem__`: overwrite the entry of an
already-present key, append a fresh key at the end. -/
def memoInsert (ms : Memos α) (k : MemoKey α) (v : Triple α) : Memos α :=
  if ms.any (fun p => decide (p.1 = k)) then
    ms.map (fun p => if p.1 = k then (k, v) else p)
  else
    ms ++ [(k, v)]

/-- The key store invariant of a Python `dict`: no two entries share a key. -/
def KeysUnique (ms : Memos α) : Prop := (ms.map Prod.fst).Nodup

/-- The `LatentDynamicsModel` instance state: the five layers, the two
configuration flags and the memo store. -/
structure LatentDynamicsModel (α : Type) where
  delta_mode : Bool
  fc1 : Linear α
  fc2 : Linear α
  latent_out : Linear α
  reward_out : Linear α
  term_out : Linear α
  memoize_on : Bool
  memos : Memos α
  deriving DecidableEq

/-- Layer `nn.Linear(inF, outF)` built from initializer oracles `w i j` (weight of
output `i`, input `j`) and `b i` (bias of output `i`), standing for torch's
random initialization. -/
def mkLinear (inF outF : ℕ) (w : ℕ → ℕ → α) (b : ℕ → α) : Linear α :=
  ⟨inF, (List.range outF).map (fun i => (List.range inF).map (w i)),
    (List.range outF).map b⟩

/-- Embedding of `LatentDynamicsModel.__init__`: the layer widths fixed at construction
(`latent_state_dim + action_dim → 256 → 32 → {latent_state_dim, 1, 1}`),
memoization off, empty memo store. `wInit l` / `bInit l` initialize layer
`l` (0 = fc1, 1 = fc2, 2 = latent_out, 3 = reward_out, 4 = term_out). -/
def mkLatentDynamicsModel (latent_state_dim action_dim : ℕ) (delta_mode : Bool)
    (wInit : ℕ → ℕ → ℕ → α) (bInit : ℕ → ℕ → α) : LatentDynamicsModel α :=
  { delta_mode := delta_mode
    fc1 := mkLinear (latent_state_dim + action_dim) 256 (wInit 0) (bInit 0)
    fc2 := mkLinear 256 32 (wInit 1) (bInit 1)
    latent_out := mkLinear 32 latent_state_dim (wInit 2) (bInit 2)
    reward_out := mkLinear 32 1 (wInit 3) (bInit 3)
    term_out := mkLinear 32 1 (wInit 4) (bInit 4)
    memoize_on := false
    memos := [] }

/-- Embedding of `start_memoize()`. -/
def LatentDynamicsModel.start_memoize (m : LatentDynamicsModel α) :
    LatentDynamicsModel α :=
  { m with memoize_on := true }

/-- Embedding of `stop_memoize()`. -/
def LatentDynamicsModel.stop_memoize (m : LatentDynamicsModel α) :
    LatentDynamicsModel α :=
  { m with memoize_on := false }

/-- Embedding of `set_memo(latent_obs, action, latent_next_obs, reward, term)`:
force-insert under the key `cat(latent_obs, action)`, ignoring the mode
flag. -/
def LatentDynamicsModel.set_memo (m : LatentDynamicsModel α)
    (latent_obs action latent_next_obs reward term : List α) :
    LatentDynamicsModel α :=
  let memo_key := latent_obs ++ action
  { m with memos := memoInsert m.memos memo_key (latent_next_obs, reward, term) }

/-- Embedding of `clear_memos()`. -/
def LatentDynamicsModel.clear_memos (m : LatentDynamicsModel α) :
    LatentDynamicsModel α :=
  { m with memos := [] }

/-- The network part of `forward`: `x = relu(fc1(x)); x = relu(fc2(x))`,
then the three heads, delta-mode residual addition for the state output, raw
reward, squashed (`σ`) termination. Fails (`none`) exactly where torch would
raise a shape error. -/
def predictCompute (σ : α → α) (m : LatentDynamicsModel α)
    (latent_obs action : List α) : Option (Triple α) := do
  let x := latent_obs ++ action
  let h1 ← applyLinear m.fc1 x
  let x1 := h1.map relu
  let h2 ← applyLinear m.fc2 x1
  let x2 := h2.map relu
  let latRaw ← applyLinear m.latent_out x2
  let pred_latent_next_obs ←
    if m.delta_mode then addBroadcast latent_obs latRaw else pure latRaw
  let pred_reward ← applyLinear m.reward_out x2
  let rawTerm ← applyLinear m.term_out x2
  pure (pred_latent_next_obs, pred_reward, rawTerm.map σ)

/-- Embedding of `forward(latent_obs, action)`: consult the memo store when memoization
is on (hit returns the stored triple flagged `true` and leaves the state
unchanged); otherwise run the network and, when memoization is on, store the
computed triple under the concatenated-input key. Returns the result tuple
together with the updated model state. -/
def forward (σ : α → α) (m : LatentDynamicsModel α) (latent_obs action : List α) :
    Option ((List α × List α × List α × Bool) × LatentDynamicsModel α) :=
  let x := latent_obs ++ action
  match (if m.memoize_on then memoLookup m.memos x else none) with
  | some (ns, r, t) => some ((ns, r, t, true), m)
  | none =>
    (predictCompute σ m latent_obs action).map (fun tr =>
      ((tr.1, tr.2.1, tr.2.2, false),
        if m.memoize_on then { m with memos := memoInsert m.memos x tr }
        else m))

/-- Embedding of `run(latent_obs, action)`: delegates to `self(latent_obs, action)`,
i.e. to `forward`. -/
def LatentDynamicsModel.run (σ : α → α) (m : LatentDynamicsModel α)
    (latent_obs action : List α) :
    Option ((List α × List α × List α × Bool) × LatentDynamicsModel α) :=
  forward σ m latent_obs action

/-- The real logistic function implementing `torch.sigmoid` on one
coordinate. -/
noncomputable def sigmoidR (z : ℝ) : ℝ := 1 / (1 + Real.exp (-z))

/-- A concrete rational model built by the constructor with
`latent_state_dim = 1`, `action_dim = 1`, zero-initialized weights;
used to instantiate the theorems on executable inputs. -/
def zModel (delta : Bool) : LatentDynamicsModel ℤ :=
  mkLatentDynamicsModel 1 1 delta (fun _ _ _ => 0) (fun _ _ => 0)

/-- The model `zModel false` after `start_memoize()`. -/
def zOn : LatentDynamicsModel ℤ := (zModel false).start_memoize

/-- The model `zOn` after one memoized prediction on `([0], [0])`. -/
def zOn' : LatentDynamicsModel ℤ :=
  { zOn with memos := [([0, 0], ([0], [0], [0]))] }

/-- A minimal concrete real-valued model state (single hidden unit, zero
weights) for instantiating the real-number theorems. -/
def zR : LatentDynamicsModel ℝ :=
  ⟨false, ⟨2, [[0, 0]], [0]⟩, ⟨1, [[0]], [0]⟩, ⟨1, [[0]], [0]⟩,
    ⟨1, [[0]], [0]⟩, ⟨1, [[0]], [0]⟩, false, []⟩

/-! ## Lemmas about the memo store -/

lemma memoLookup_nil (k : MemoKey α) : memoLookup ([] : Memos α) k = none := rfl

lemma find_replace (ms : Memos α) (k : MemoKey α) (v : Triple α)
    (h : ms.any (fun p => decide (p.1 = k)) = true) :
    (ms.map (fun p => if p.1 = k then (k, v) else p)).find?
      (fun p => decide (p.1 = k)) = some (k, v) := by
  induction ms with
  | nil => simp at h
  | cons p t ih =>
    by_cases hp : p.1 = k
    · simp [hp]
    · have ht : t.any (fun p => decide (p.1 = k)) = true := by
        simpa [hp] using h
      simpa [hp] using ih ht

lemma find_append_fresh (ms : Memos α) (k : MemoKey α) (v : Triple α)
    (h : ms.any (fun p => decide (p.1 = k)) = false) :
    (ms ++ [(k, v)]).find? (fun p => decide (p.1 = k)) = some (k, v) := by
  induction ms with
  | nil => simp
  | cons p t ih =>
    have hp : ¬ p.1 = k := by
      intro hk
      simp [hk] at h
    have ht : t.any (fun p => decide (p.1 = k)) = false := by
      simpa [hp] using h
    simpa [hp] using ih ht

/-- A `dict` update followed by lookup of the same key returns the new
value (last write wins). -/
lemma memoLookup_memoInsert_self (ms : Memos α) (k : MemoKey α) (v : Triple α) :
    memoLookup (memoInsert ms k v) k = some v := by
  unfold memoLookup memoInsert
  by_cases h : ms.any (fun p => decide (p.1 = k)) = true
  · rw [if_pos h, find_replace ms k v h]
    rfl
  · rw [if_neg h, find_append_fresh ms k v (Bool.eq_false_iff.mpr h)]
    rfl

/-- A `dict` update preserves key uniqueness. -/
lemma keysUnique_memoInsert (ms : Memos α) (k : MemoKey α) (v : Triple α)
    (h : KeysUnique ms) : KeysUnique (memoInsert ms k v) := by
  unfold KeysUnique memoInsert
  by_cases hmem : ms.any (fun p => decide (p.1 = k)) = true
  · rw [if_pos hmem]
    have hkeys : (ms.map (fun p => if p.1 = k then (k, v) else p)).map Prod.fst
        = ms.map Prod.fst := by
      rw [List.map_map]
      apply List.map_congr_left
      intro p _
      by_cases hp : p.1 = k
      · simp [hp]
      · simp [hp]
    rw [hkeys]
    exact h
  · rw [if_neg hmem]
    have hk : k ∉ ms.map Prod.fst := by
      intro hk
      obtain ⟨p, hpmem, hpk⟩ := List.mem_map.mp hk
      exact hmem (List.any_eq_true.mpr ⟨p, hpmem, by simp [hpk]⟩)
    simp only [List.map_append, List.map_cons, List.map_nil]
    rw [List.nodup_append]
    have hdisj : (ms.map Prod.fst).Disjoint [k] := by
      intro x hx hxk
      rw [List.mem_singleton] at hxk
      subst hxk
      exact hk hx
    exact ⟨h, List.nodup_singleton k, hdisj⟩

/-! ## Unfolding lemmas for `forward` -/

lemma forward_of_memo_off (σ : α → α) (m : LatentDynamicsModel α)
    (s a : List α) (h : m.memoize_on = false) :
    forward σ m s a = (predictCompute σ m s a).map
      (fun tr => ((tr.1, tr.2.1, tr.2.2, false), m)) := by
  simp [forward, h]

lemma forward_of_hit (σ : α → α) (m : LatentDynamicsModel α)
    (s a ns r t : List α) (h : m.memoize_on = true)
    (hl : memoLookup m.memos (s ++ a) = some (ns, r, t)) :
    forward σ m s a = some ((ns, r, t, true), m) := by
  simp [forward, h, hl]

lemma forward_of_miss (σ : α → α) (m : LatentDynamicsModel α)
    (s a : List α) (h : m.memoize_on = true)
    (hl : memoLookup m.memos (s ++ a) = none) :
    forward σ m s a = (predictCompute σ m s a).map
      (fun tr => ((tr.1, tr.2.1, tr.2.2, false),
        { m with memos := memoInsert m.memos (s ++ a) tr })) := by
  simp [forward, h, hl]

/-- Anatomy of a non-hit `forward` call: when the memo consultation yields
nothing, a successful call comes from `predictCompute`, carries hit-flag
`false`, and updates the store exactly when memoization is on. -/
lemma forward_compute_anatomy (σ : α → α) (m : LatentDynamicsModel α)
    (s a : List α) (res : List α × List α × List α × Bool)
    (m₂ : LatentDynamicsModel α)
    (hl : (if m.memoize_on = true then memoLookup m.memos (s ++ a) else none)
      = none)
    (h : forward σ m s a = some (res, m₂)) :
    ∃ tr, predictCompute σ m s a = some tr ∧
      res = (tr.1, tr.2.1, tr.2.2, false) ∧
      m₂ = (if m.memoize_on = true
        then { m with memos := memoInsert m.memos (s ++ a) tr } else m) := by
  by_cases hm : m.memoize_on = true
  · have hl' : memoLookup m.memos (s ++ a) = none := by simpa [hm] using hl
    rw [forward_of_miss σ m s a hm hl'] at h
    cases hpc : predictCompute σ m s a with
    | none =>
      rw [hpc] at h
      simp at h
    | some tr =>
      rw [hpc] at h
      simp only [Option.map_some', Option.some.injEq, Prod.mk.injEq] at h
      refine ⟨tr, rfl, h.1.symm, ?_⟩
      rw [if_pos hm]
      exact h.2.symm
  · have hm' : m.memoize_on = false := Bool.eq_false_iff.mpr hm
    rw [forward_of_memo_off σ m s a hm'] at h
    cases hpc : predictCompute σ m s a with
    | none =>
      rw [hpc] at h
      simp at h
    | some tr =>
      rw [hpc] at h
      simp only [Option.map_some', Option.some.injEq, Prod.mk.injEq] at h
      refine ⟨tr, rfl, h.1.symm, ?_⟩
      rw [if_neg hm]
      exact h.2.symm

/-! ## Claim theorems -/

/-- C3: for every `(s, a, ns, r, t)`, after `set_memo(s, a, ns, r, t)` —
which inserts regardless of the memoization mode flag — a call to
`forward(s, a)` with memoization on returns exactly `(ns, r, t, true)`
without evaluating the network layers (the result does not depend on the
layers or on `σ`, and the state is unchanged). -/
theorem set_memo_seeds_prediction (σ : α → α) (m : LatentDynamicsModel α)
    (s a ns r t : List α) (hmode : m.memoize_on = true) :
    forward σ (m.set_memo s a ns r t) s a
      = some ((ns, r, t, true), m.set_memo s a ns r t) := by
  apply forward_of_hit
  · exact hmode
  · exact memoLookup_memoInsert_self m.memos (s ++ a) (ns, r, t)

/-- Witness for C3 on a concrete constructor-built model. -/
theorem set_memo_seeds_prediction_witness :
    forward (fun x : ℤ => x) (zOn.set_memo [0] [0] [5] [7] [9]) [0] [0]
      = some (([5], [7], [9], true), zOn.set_memo [0] [0] [5] [7] [9]) :=
  set_memo_seeds_prediction (fun x => x) zOn [0] [0] [5] [7] [9] rfl

/-- C5: `clear_memos()` empties the store unconditionally, and a `forward`
on any key after `clear_memos()` with memoization on returns hit-flag
`false`. -/
theorem clear_memos_empties_store (σ : α → α) (m : LatentDynamicsModel α)
    (s a : List α) (res : List α × List α × List α × Bool)
    (m₂ : LatentDynamicsModel α) (hmode : m.memoize_on = true)
    (hrun : forward σ m.clear_memos s a = some (res, m₂)) :
    (m.clear_memos).memos = ([] : Memos α) ∧ res.2.2.2 = false := by
  refine ⟨rfl, ?_⟩
  obtain ⟨tr, _, hres, _⟩ := forward_compute_anatomy σ m.clear_memos s a res m₂
    (by simp [memoLookup, LatentDynamicsModel.clear_memos]) hrun
  rw [hres]

/-- Witness for C5 on a concrete constructor-built model with a previously
memoized key. -/
theorem clear_memos_empties_store_witness :
    (zOn'.clear_memos).memos = ([] : Memos ℤ)
      ∧ ((([0], [0], [0], false) :
          List ℤ × List ℤ × List ℤ × Bool)).2.2.2 = false :=
  clear_memos_empties_store (fun x => x) zOn' [0] [0] ([0], [0], [0], false)
    { zOn'.clear_memos with memos := [([0, 0], ([0], [0], [0]))] }
    rfl (by decide)

/-- C7: with fixed parameters and memoization off, two successive calls to
`forward(s, a)` with identical inputs return identical results: the first
call leaves the state unchanged and the repeated call produces the same
output. -/
theorem predict_deterministic_two_runs (σ : α → α)
    (m : LatentDynamicsModel α) (s a : List α)
    (res : List α × List α × List α × Bool) (m₂ : LatentDynamicsModel α)
    (hmode : m.memoize_on = false)
    (h : forward σ m s a = some (res, m₂)) :
    m₂ = m ∧ forward σ m₂ s a = some (res, m₂) := by
  obtain ⟨tr, _, _, hm₂⟩ := forward_compute_anatomy σ m s a res m₂
    (by simp [hmode]) h
  rw [hmode] at hm₂
  simp only [Bool.false_eq_true, if_false] at hm₂
  exact ⟨hm₂, by rw [hm₂]; exact hm₂ ▸ h⟩

/-- Witness for C7 on a concrete constructor-built model. -/
theorem predict_deterministic_two_runs_witness :
    zModel false = zModel false ∧
      forward (fun x : ℤ => x) (zModel false) [0] [0]
        = some ((([0], [0], [0], false) :
            List ℤ × List ℤ × List ℤ × Bool), zModel false) :=
  predict_deterministic_two_runs (fun x => x) (zModel false) [0] [0]
    ([0], [0], [0], false) (zModel false) rfl (by decide)

/-- C1: with memoization on, the first `forward(s, a)` after `clear_memos()`
returns hit-flag `false`, and an immediately repeated call with the identical
`(s, a)` and unchanged parameters returns hit-flag `true` together with a
triple value-identical to the one the first call produced. -/
theorem memo_first_call_misses_then_hits (σ : α → α)
    (m : LatentDynamicsModel α) (s a ns r t : List α) (hit : Bool)
    (m₂ : LatentDynamicsModel α) (hmode : m.memoize_on = true)
    (h1 : forward σ m.clear_memos s a = some ((ns, r, t, hit), m₂)) :
    hit = false ∧ forward σ m₂ s a = some ((ns, r, t, true), m₂) := by
  obtain ⟨tr, hpc, hres, hm₂⟩ := forward_compute_anatomy σ m.clear_memos s a
    (ns, r, t, hit) m₂ (by simp [memoLookup, LatentDynamicsModel.clear_memos])
    h1
  obtain ⟨tns, trw, tt⟩ := tr
  simp only [Prod.mk.injEq] at hres
  obtain ⟨hns, hr, ht, hhit⟩ := hres
  have hmode' : (m.clear_memos).memoize_on = true := hmode
  rw [if_pos hmode'] at hm₂
  refine ⟨hhit, ?_⟩
  subst hns hr ht hm₂
  apply forward_of_hit
  · exact hmode
  · exact memoLookup_memoInsert_self (m.clear_memos).memos (s ++ a) (ns, r, t)

/-- Witness for C1 on a concrete constructor-built model. -/
theorem memo_first_call_misses_then_hits_witness :
    (false = false) ∧ forward (fun x : ℤ => x) zOn' [0] [0]
      = some (([0], [0], [0], true), zOn') :=
  memo_first_call_misses_then_hits (fun x => x) zOn [0] [0] [0] [0] [0] false
    zOn' rfl (by decide)

/-- C4: after `stop_memoize()`, a call recomputes (hit-flag false) and
neither reads nor writes the memo store — even when the store holds an entry
for the queried key — while the stored entries are retained; a subsequent
`start_memoize()` without an intervening `clear_memos()` makes the stored
entry reachable again (hit-flag `true` on the next identical query). -/
theorem stop_memoize_isolation (σ : α → α) (m : LatentDynamicsModel α)
    (s a ns r t : List α) (res : List α × List α × List α × Bool)
    (m₂ : LatentDynamicsModel α)
    (hstore : memoLookup m.memos (s ++ a) = some (ns, r, t))
    (hrun : forward σ m.stop_memoize s a = some (res, m₂)) :
    res.2.2.2 = false ∧ m₂ = m.stop_memoize
      ∧ (m.stop_memoize).memos = m.memos
      ∧ forward σ ((m.stop_memoize).start_memoize) s a
          = some ((ns, r, t, true), (m.stop_memoize).start_memoize) := by
  obtain ⟨tr, _, hres, hm₂⟩ := forward_compute_anatomy σ m.stop_memoize s a
    res m₂ (by simp [LatentDynamicsModel.stop_memoize]) hrun
  refine ⟨by rw [hres], ?_, rfl, ?_⟩
  · rw [hm₂]
    simp [LatentDynamicsModel.stop_memoize]
  · apply forward_of_hit
    · rfl
    · exact hstore

/-- Witness for C4 on a concrete constructor-built model with a stored
entry. -/
theorem stop_memoize_isolation_witness :
    (([0], [0], [0], false) :
        List ℤ × List ℤ × List ℤ × Bool).2.2.2 = false
      ∧ zOn'.stop_memoize = zOn'.stop_memoize
      ∧ (zOn'.stop_memoize).memos = zOn'.memos
      ∧ forward (fun x : ℤ => x) ((zOn'.stop_memoize).start_memoize) [0] [0]
          = some (([0], [0], [0], true), (zOn'.stop_memoize).start_memoize) :=
  stop_memoize_isolation (fun x => x) zOn' [0] [0] [0] [0] [0]
    ([0], [0], [0], false) zOn'.stop_memoize (by decide) (by decide)

/-- C9: inserting under a key that is already present (via `set_memo` or via
the miss-path store of `forward`) replaces the stored triple — last write
wins — and both `set_memo` and `forward` preserve the key-uniqueness
invariant of the store. -/
theorem memo_store_last_write_wins_unique_keys (σ : α → α)
    (m : LatentDynamicsModel α) (s a ns r t : List α)
    (res : List α × List α × List α × Bool) (m₂ : LatentDynamicsModel α)
    (hu : KeysUnique m.memos)
    (hrun : forward σ m s a = some (res, m₂)) :
    memoLookup (memoInsert m.memos (s ++ a) (ns, r, t)) (s ++ a)
        = some (ns, r, t)
      ∧ KeysUnique ((m.set_memo s a ns r t).memos)
      ∧ KeysUnique m₂.memos := by
  refine ⟨memoLookup_memoInsert_self _ _ _,
    keysUnique_memoInsert _ _ _ hu, ?_⟩
  cases hl : (if m.memoize_on = true then memoLookup m.memos (s ++ a)
      else none) with
  | none =>
    obtain ⟨tr, _, _, hm₂⟩ := forward_compute_anatomy σ m s a res m₂ hl hrun
    rw [hm₂]
    by_cases hm : m.memoize_on = true
    · rw [if_pos hm]
      exact keysUnique_memoInsert _ _ _ hu
    · rw [if_neg hm]
      exact hu
  | some tr =>
    obtain ⟨tns, trw, tt⟩ := tr
    have hmon : m.memoize_on = true := by
      by_contra hc
      simp [hc] at hl
    have hl' : memoLookup m.memos (s ++ a) = some (tns, trw, tt) := by
      simpa [hmon] using hl
    rw [forward_of_hit σ m s a tns trw tt hmon hl'] at hrun
    simp only [Option.some.injEq, Prod.mk.injEq] at hrun
    exact hrun.2 ▸ hu

/-- Witness for C9 on a concrete constructor-built model. -/
theorem memo_store_last_write_wins_unique_keys_witness :
    memoLookup (memoInsert zOn.memos ([0] ++ [0]) ([1], [2], [3]))
        ([0] ++ [0]) = some ([1], [2], [3])
      ∧ KeysUnique ((zOn.set_memo [0] [0] [1] [2] [3]).memos)
      ∧ KeysUnique zOn'.memos :=
  memo_store_last_write_wins_unique_keys (fun x => x) zOn [0] [0] [1] [2] [3]
    ([0], [0], [0], false) zOn' List.Pairwise.nil (by decide)

/-- Anatomy of a successful network computation: the values flowing through
the two hidden layers and the three heads, with the delta-mode residual
addition for the state output. -/
lemma predictCompute_eq_some (σ : α → α) (m : LatentDynamicsModel α)
    (latent action : List α) (tr : Triple α)
    (h : predictCompute σ m latent action = some tr) :
    ∃ h1 h2 latRaw pn rw rawT,
      applyLinear m.fc1 (latent ++ action) = some h1 ∧
      applyLinear m.fc2 (h1.map relu) = some h2 ∧
      applyLinear m.latent_out (h2.map relu) = some latRaw ∧
      (if m.delta_mode = true then addBroadcast latent latRaw = some pn
        else pn = latRaw) ∧
      applyLinear m.reward_out (h2.map relu) = some rw ∧
      applyLinear m.term_out (h2.map relu) = some rawT ∧
      tr = (pn, rw, rawT.map σ) := by
  cases e1 : applyLinear m.fc1 (latent ++ action) with
  | none => simp [predictCompute, e1] at h
  | some v1 =>
  cases e2 : applyLinear m.fc2 (v1.map relu) with
  | none => simp [predictCompute, e1, e2] at h
  | some v2 =>
  cases e3 : applyLinear m.latent_out (v2.map relu) with
  | none => simp [predictCompute, e1, e2, e3] at h
  | some v3 =>
  by_cases hd : m.delta_mode = true
  · cases e4 : addBroadcast latent v3 with
    | none => simp [predictCompute, e1, e2, e3, hd, e4] at h
    | some v4 =>
    cases e5 : applyLinear m.reward_out (v2.map relu) with
    | none => simp [predictCompute, e1, e2, e3, hd, e4, e5] at h
    | some v5 =>
    cases e6 : applyLinear m.term_out (v2.map relu) with
    | none => simp [predictCompute, e1, e2, e3, hd, e4, e5, e6] at h
    | some v6 =>
    refine ⟨v1, v2, v3, v4, v5, v6, rfl, e2, e3, ?_, e5, e6, ?_⟩
    · rw [if_pos hd]
      exact e4
    · have h' := h
      simp [predictCompute, e1, e2, e3, hd, e4, e5, e6] at h'
      exact h'.symm
  · cases e5 : applyLinear m.reward_out (v2.map relu) with
    | none => simp [predictCompute, e1, e2, e3, hd, e5] at h
    | some v5 =>
    cases e6 : applyLinear m.term_out (v2.map relu) with
    | none => simp [predictCompute, e1, e2, e3, hd, e5, e6] at h
    | some v6 =>
    refine ⟨v1, v2, v3, v3, v5, v6, rfl, e2, e3, ?_, e5, e6, ?_⟩
    · rw [if_neg hd]
    · have h' := h
      simp [predictCompute, e1, e2, e3, hd, e5, e6] at h'
      exact h'.symm

/-- The logistic function stays strictly inside the open unit interval. -/
lemma sigmoidR_mem_open_unit (z : ℝ) : 0 < sigmoidR z ∧ sigmoidR z < 1 := by
  have he : 0 < Real.exp (-z) := Real.exp_pos _
  constructor
  · unfold sigmoidR
    positivity
  · unfold sigmoidR
    rw [div_lt_one (by linarith)]
    linarith

/-- C2: on every computed (non-hit) call, with `delta_mode = true` the
returned next latent state is the input latent state plus the raw output of
the state head; with `delta_mode = false` it is the state head's output
directly. -/
theorem delta_mode_state_prediction (σ : α → α) (m : LatentDynamicsModel α)
    (latent action ns r t : List α) (m₂ : LatentDynamicsModel α)
    (h1 h2 latRaw : List α)
    (hrun : forward σ m latent action = some ((ns, r, t, false), m₂))
    (hf1 : applyLinear m.fc1 (latent ++ action) = some h1)
    (hf2 : applyLinear m.fc2 (h1.map relu) = some h2)
    (hlat : applyLinear m.latent_out (h2.map relu) = some latRaw) :
    if m.delta_mode then addBroadcast latent latRaw = some ns
    else ns = latRaw := by
  cases hl : (if m.memoize_on = true
      then memoLookup m.memos (latent ++ action) else none) with
  | some tr =>
    obtain ⟨tns, trw, tt⟩ := tr
    have hmon : m.memoize_on = true := by
      by_contra hc
      simp [hc] at hl
    have hl' : memoLookup m.memos (latent ++ action) = some (tns, trw, tt) := by
      simpa [hmon] using hl
    rw [forward_of_hit σ m latent action tns trw tt hmon hl'] at hrun
    simp at hrun
  | none =>
    obtain ⟨tr, hpc, hres, _⟩ := forward_compute_anatomy σ m latent action
      (ns, r, t, false) m₂ hl hrun
    obtain ⟨u1, u2, u3, pn, u4, u5, hu1, hu2, hu3, hpn, hu4, hu5, htr⟩ :=
      predictCompute_eq_some σ m latent action tr hpc
    obtain rfl : u1 = h1 := Option.some.inj (hu1.symm.trans hf1)
    obtain rfl : u2 = h2 := Option.some.inj (hu2.symm.trans hf2)
    obtain rfl : u3 = latRaw := Option.some.inj (hu3.symm.trans hlat)
    subst htr
    simp only [Prod.mk.injEq] at hres
    have hns : ns = pn := hres.1
    by_cases hd : m.delta_mode = true
    · rw [if_pos hd]
      rw [if_pos hd] at hpn
      rw [hns]
      exact hpn
    · rw [if_neg hd]
      rw [if_neg hd] at hpn
      rw [hns, hpn]

/-- Witness for C2 on a concrete constructor-built model in delta mode. -/
theorem delta_mode_state_prediction_witness :
    if (zModel true).delta_mode
    then addBroadcast [1] [0] = some ([1] : List ℤ)
    else ([1] : List ℤ) = [0] :=
  delta_mode_state_prediction (fun x => x) (zModel true) [1] [0] [1] [0] [0]
    (zModel true) (List.replicate 256 0) (List.replicate 32 0) [0]
    (by decide) (by decide) (by decide) (by decide)

/-- C6: on every computed (non-hit) real-valued call, the returned
termination tensor is the element-wise logistic squashing of the termination
head's raw output, and every coordinate lies strictly within `(0, 1)`. -/
theorem termination_sigmoid_open_unit_interval (m : LatentDynamicsModel ℝ)
    (latent action ns r t : List ℝ) (m₂ : LatentDynamicsModel ℝ)
    (h1 h2 rawT : List ℝ)
    (hrun : forward sigmoidR m latent action = some ((ns, r, t, false), m₂))
    (hf1 : applyLinear m.fc1 (latent ++ action) = some h1)
    (hf2 : applyLinear m.fc2 (h1.map relu) = some h2)
    (hterm : applyLinear m.term_out (h2.map relu) = some rawT) :
    t = rawT.map sigmoidR ∧ ∀ y ∈ t, 0 < y ∧ y < 1 := by
  have hmain : t = rawT.map sigmoidR := by
    cases hl : (if m.memoize_on = true
        then memoLookup m.memos (latent ++ action) else none) with
    | some tr =>
      obtain ⟨tns, trw, tt⟩ := tr
      have hmon : m.memoize_on = true := by
        by_contra hc
        simp [hc] at hl
      have hl' : memoLookup m.memos (latent ++ action) = some (tns, trw, tt) := by
        simpa [hmon] using hl
      rw [forward_of_hit sigmoidR m latent action tns trw tt hmon hl'] at hrun
      simp at hrun
    | none =>
      obtain ⟨tr, hpc, hres, _⟩ := forward_compute_anatomy sigmoidR m latent
        action (ns, r, t, false) m₂ hl hrun
      obtain ⟨u1, u2, u3, pn, u4, u5, hu1, hu2, hu3, hpn, hu4, hu5, htr⟩ :=
        predictCompute_eq_some sigmoidR m latent action tr hpc
      obtain rfl : u1 = h1 := Option.some.inj (hu1.symm.trans hf1)
      obtain rfl : u2 = h2 := Option.some.inj (hu2.symm.trans hf2)
      obtain rfl : u5 = rawT := Option.some.inj (hu5.symm.trans hterm)
      subst htr
      simp only [Prod.mk.injEq] at hres
      exact hres.2.2.1
  refine ⟨hmain, ?_⟩
  intro y hy
  rw [hmain] at hy
  obtain ⟨z, _, rfl⟩ := List.mem_map.mp hy
  exact sigmoidR_mem_open_unit z

/-- Witness for C6 on a concrete real-valued model. -/
theorem termination_sigmoid_open_unit_interval_witness :
    0 < sigmoidR 0 ∧ sigmoidR 0 < 1 :=
  (termination_sigmoid_open_unit_interval zR [0] [0] [0] [0] [sigmoidR 0] zR
    [0] [0] [0]
    (by norm_num [forward, predictCompute, applyLinear, memoLookup, dot,
      relu, zR])
    (by norm_num [applyLinear, dot, relu, zR])
    (by norm_num [applyLinear, dot, relu, zR])
    (by norm_num [applyLinear, dot, relu, zR])).2 (sigmoidR 0) (by simp)

/-- A constructor-built layer accepts exactly the inputs whose width is the
declared `in_features`. -/
lemma applyLinear_mkLinear_isSome_iff (i o : ℕ) (w : ℕ → ℕ → α) (b : ℕ → α)
    (v : List α) :
    (applyLinear (mkLinear i o w b) v).isSome = true ↔ v.length = i := by
  by_cases h : v.length = i
  · simp [applyLinear, mkLinear, h]
  · simp [applyLinear, mkLinear, h]

/-- A constructor-built layer outputs exactly `out_features` coordinates. -/
lemma applyLinear_mkLinear_length (i o : ℕ) (w : ℕ → ℕ → α) (b : ℕ → α)
    (v u : List α) (h : applyLinear (mkLinear i o w b) v = some u) :
    u.length = o := by
  by_cases hv : v.length = i
  · unfold applyLinear mkLinear at h
    rw [if_pos hv] at h
    obtain rfl := (Option.some.inj h).symm
    simp [List.length_zipWith]
  · unfold applyLinear mkLinear at h
    rw [if_neg hv] at h
    exact absurd h (by simp)

/-- C8 (amended): for a freshly constructed model in absolute mode,
`forward` fails with a shape error exactly when the total width of the
concatenated (latent, action) input differs from
`latent_state_dim + action_dim`; individually mismatched widths that
compensate to the correct total are not detected. -/
theorem shape_error_iff_total_width (σ : α → α) (ds da : ℕ)
    (w : ℕ → ℕ → ℕ → α) (b : ℕ → ℕ → α) (s a : List α) :
    (forward σ (mkLatentDynamicsModel ds da false w b) s a).isSome = true
      ↔ s.length + a.length = ds + da := by
  set M := mkLatentDynamicsModel ds da false w b with hM
  have hoff : M.memoize_on = false := rfl
  have hfc1 : M.fc1 = mkLinear (ds + da) 256 (w 0) (b 0) := rfl
  have hfc2 : M.fc2 = mkLinear 256 32 (w 1) (b 1) := rfl
  have hlatw : M.latent_out = mkLinear 32 ds (w 2) (b 2) := rfl
  have hrww : M.reward_out = mkLinear 32 1 (w 3) (b 3) := rfl
  have htw : M.term_out = mkLinear 32 1 (w 4) (b 4) := rfl
  rw [forward_of_memo_off σ M s a hoff]
  have hiff : ∀ y : Option (Triple α),
      ((y.map (fun tr => ((tr.1, tr.2.1, tr.2.2, false), M))).isSome
        = y.isSome) := by
    intro y
    cases y <;> rfl
  rw [hiff]
  constructor
  · intro h
    obtain ⟨tr, htr⟩ := Option.isSome_iff_exists.mp h
    obtain ⟨u1, u2, u3, pn, u4, u5, hu1, _, _, _, _, _, _⟩ :=
      predictCompute_eq_some σ M s a tr htr
    rw [hfc1] at hu1
    have := (applyLinear_mkLinear_isSome_iff (ds + da) 256 (w 0) (b 0)
      (s ++ a)).mp (by rw [hu1]; rfl)
    simpa [List.length_append] using this
  · intro hlen
    have hu1e : (applyLinear M.fc1 (s ++ a)).isSome = true := by
      rw [hfc1]
      exact (applyLinear_mkLinear_isSome_iff _ _ _ _ _).mpr
        (by simpa [List.length_append] using hlen)
    obtain ⟨u1, hu1⟩ := Option.isSome_iff_exists.mp hu1e
    have hl1 : u1.length = 256 :=
      applyLinear_mkLinear_length _ _ _ _ _ _ (hfc1 ▸ hu1)
    have hu2e : (applyLinear M.fc2 (u1.map relu)).isSome = true := by
      rw [hfc2]
      exact (applyLinear_mkLinear_isSome_iff _ _ _ _ _).mpr
        (by simp [hl1])
    obtain ⟨u2, hu2⟩ := Option.isSome_iff_exists.mp hu2e
    have hl2 : u2.length = 32 :=
      applyLinear_mkLinear_length _ _ _ _ _ _ (hfc2 ▸ hu2)
    have hu3e : (applyLinear M.latent_out (u2.map relu)).isSome = true := by
      rw [hlatw]
      exact (applyLinear_mkLinear_isSome_iff _ _ _ _ _).mpr
        (by simp [hl2])
    obtain ⟨u3, hu3⟩ := Option.isSome_iff_exists.mp hu3e
    have hu4e : (applyLinear M.reward_out (u2.map relu)).isSome = true := by
      rw [hrww]
      exact (applyLinear_mkLinear_isSome_iff _ _ _ _ _).mpr
        (by simp [hl2])
    obtain ⟨u4, hu4⟩ := Option.isSome_iff_exists.mp hu4e
    have hu5e : (applyLinear M.term_out (u2.map relu)).isSome = true := by
      rw [htw]
      exact (applyLinear_mkLinear_isSome_iff _ _ _ _ _).mpr
        (by simp [hl2])
    obtain ⟨u5, hu5⟩ := Option.isSome_iff_exists.mp hu5e
    have hdm : M.delta_mode = false := rfl
    simp [predictCompute, hu1, hu2, hu3, hu4, hu5, hdm]

/-- C8 counterexample to the claim as stated: a latent input of width 2 on
a model constructed with `latent_state_dim = 1` (and a width-0 action on
`action_dim = 1`) is accepted without any shape error, because only the
total concatenated width is checked by the first layer. -/
theorem shape_mismatch_counterexample :
    ([0, 0] : List ℤ).length ≠ 1
      ∧ (forward (fun x : ℤ => x)
          (mkLatentDynamicsModel 1 1 false (fun _ _ _ => 0) (fun _ _ => 0))
          [0, 0] []).isSome = true := by
  constructor
  · decide
  · decide

/-- C10: the public entry point `run(latent_obs, action)` delegates to the
predictor `forward`: the two entry points return the same result and
produce the same state, for every input. -/
theorem run_delegates_to_forward (σ : α → α) (m : LatentDynamicsModel α)
    (s a : List α) :
    m.run σ s a = forward σ m s a := rfl

end LDM
